import Mathlib

/-!
# Navigation-bridging mount adapters of the micro-frontend bundles

A shallow embedding of `packages/auth/src/bootstrap.js` and
`packages/dashboard/src/bootstrap.js`.

* The navigation controller (the `history` package) is a dependency that is not
  part of the sources; it is modelled from the specification: it holds the
  current location, a stack of entries and the registered listeners, `push`
  moves to the pushed pathname and then notifies the listeners synchronously,
  in registration order.
* Callbacks supplied by the host are JavaScript functions. A callback is
  modelled by what it does with the mount handle when it is fired: the list of
  locations it forwards to `onParentNavigate`. Because a callback may re-enter
  the handle, execution carries a bound on the nesting depth of
  `onParentNavigate` calls (`fuel`); `none` means the bound was exceeded.
* `trace` is an observation log (renders, pushes, listener firings); it is not
  read by the modelled code.
-/

namespace Microfrontend

/-- A DOM element, identified by its `id` attribute. -/
structure Element where
  id : String
deriving DecidableEq, Repr

/-- A location object. Only `pathname` is read by the adapters. -/
structure Location where
  pathname : String
  search : String := ""
  hash : String := ""
deriving DecidableEq, Repr

/-- A host-supplied callback `(location) => ...`: the locations it passes to the
`onParentNavigate` method of the handle it was mounted with, in call order. -/
structure Callback where
  forwards : Location → List Location

/-- Observable effects, in the order they happen. -/
inductive Event where
  | rendered (el : Element)
  | pushed (pathname : String)
  | fired (listener : Nat) (location : Location)
deriving DecidableEq, Repr

/-- What backs a navigation controller. -/
inductive Backing where
  | memory
  | browser
deriving DecidableEq, Repr

/-- Modelled from the spec: the navigation controller object of the `history`
package (not part of the sources): "an object tracking the current logical
location and notifying listeners on change; may be backed by an in-memory list
or the browser's address bar". -/
structure History where
  backing : Backing
  entries : List Location
  index : Nat
  location : Location
  listeners : List Callback

/-- Modelled from the spec: `createMemoryHistory({ initialEntries })`, "a fresh
in-memory navigation controller seeded at" the first of the given paths (the
root when none is given), with no listener. -/
def createMemoryHistory (initialEntries : List String) : History :=
  let entries := initialEntries.map fun p => ({ pathname := p } : Location)
  { backing := Backing.memory
    entries := entries
    index := 0
    location := entries.headD { pathname := "/" }
    listeners := [] }

/-- Modelled from the spec: `createBrowserHistory()`, "a real browser-backed
navigation controller", which starts at the pathname of the address bar. -/
def createBrowserHistory (addressBar : String) : History :=
  { backing := Backing.browser
    entries := [{ pathname := addressBar }]
    index := 0
    location := { pathname := addressBar }
    listeners := [] }

/-- Modelled from the spec: `history.listen(listener)` appends the listener;
listeners are notified "in registration order". -/
def History.listen (h : History) (listener : Callback) : History :=
  { h with listeners := h.listeners ++ [listener] }

/-- Modelled from the spec: the state change of `history.push(path)`: the
entries after the current one are dropped, the new location is appended and
becomes current. -/
def History.pushEntry (h : History) (path : String) : History :=
  { h with
    entries := h.entries.take (h.index + 1) ++ [{ pathname := path }]
    index := h.index + 1
    location := { pathname := path } }

/-- State reachable from a mount handle: the controller the handle closes over
and the log of observable effects. -/
structure App where
  history : History
  trace : List Event

/-- A callback body: every forwarded location goes through the handle's
`onParentNavigate` (given as `call`), one after the other. -/
def relayAll (call : Location → App → Option App) : List Location → App → Option App
  | [], a => some a
  | q :: qs, a => (call q a).bind (relayAll call qs)

/-- Modelled from the spec: listeners are called synchronously, in registration
order, each with the new location. `i` is the registration index of the first
listener of the list. -/
def notifyListeners (call : Location → App → Option App) (loc : Location) :
    Nat → List Callback → App → Option App
  | _, [], a => some a
  | i, cb :: rest, a =>
    (relayAll call (cb.forwards loc) { a with trace := a.trace ++ [Event.fired i loc] }).bind
      (notifyListeners call loc (i + 1) rest)

/-- The call `history.push(path)`: state change, then notification. -/
def push (call : Location → App → Option App) (path : String) (a : App) : Option App :=
  let h := a.history.pushEntry path
  notifyListeners call h.location 0 h.listeners
    { history := h, trace := a.trace ++ [Event.pushed path] }

namespace Auth

/-- The method `onParentNavigate({ pathname: nextPathname })` of the handle
returned by `mount` (bootstrap.js lines 20-26). `fuel` bounds the nesting depth
of re-entrant calls made by listeners. -/
def onParentNavigate : Nat → Location → App → Option App
  | 0 => fun _ _ => none
  | fuel + 1 => fun next a =>
    let pathname := a.history.location.pathname
    if pathname ≠ next.pathname then
      push (onParentNavigate fuel) next.pathname a
    else
      some a

/-- In-app navigation: the rendered application pushes a path on the controller
it was given. -/
def navigate (fuel : Nat) (path : String) (a : App) : Option App :=
  push (onParentNavigate fuel) path a

/-- A sequence of in-app navigation pushes. -/
def navigateAll (fuel : Nat) : List String → App → Option App
  | [], a => some a
  | p :: ps, a => (navigate fuel p a).bind (navigateAll fuel ps)

/-- The handle object returned by `mount`. -/
structure Handle where
  onParentNavigate : Nat → Location → App → Option App

/-- A value of the options object of `mount`. -/
inductive OptionValue where
  | callback (cb : Callback)
  | history (h : History)
  | path (p : String)

/-- The options object passed to `mount`. The parameter pattern
`{ onNavigate, defaultHistory, initialPath } = {}` binds three properties; any
other property of the object is in `others` and is never read. -/
structure MountOptions where
  onNavigate : Option Callback := none
  defaultHistory : Option History := none
  initialPath : Option String := none
  others : List (String × OptionValue) := []

/-- The expression `initialPath || "/"`: `undefined` and the empty string are
falsy. -/
def initialPathOrRoot : Option String → String
  | none => "/"
  | some p => if p = "" then "/" else p

/-- Result of a call of `mount`: the state it leaves behind and the returned
value (`none` for `undefined`). -/
structure Mounted where
  app : App
  returned : Option Handle

/-- The controller `mount` works on (lines 7-11):
`defaultHistory || createMemoryHistory({ initialEntries: [initialPath || "/"] })`. -/
def chooseHistory (options : MountOptions) : History :=
  match options.defaultHistory with
  | some h => h
  | none => createMemoryHistory [initialPathOrRoot options.initialPath]

/-- The function `mount` of packages/auth/src/bootstrap.js (lines 6-28). -/
def mount (el : Element) (options : MountOptions) : Mounted :=
  let history := chooseHistory options
  let history :=
    match options.onNavigate with
    | some cb => history.listen cb
    | none => history
  { app := { history := history, trace := [Event.rendered el] }
    returned := some { onParentNavigate := onParentNavigate } }

end Auth

/-- One recorded invocation of auth's `mount`. -/
structure MountCall where
  el : Element
  options : Auth.MountOptions

/-- The page a bundle's entry script is evaluated in: the document, the address
bar, the global scope and what has been mounted so far. -/
structure Window where
  document : List Element
  pathname : String
  __AUTH_DEV__ : Bool
  authMountCalls : List MountCall
  authApps : List App
  dashboardMounts : List Element

/-- The call `document.querySelector("#<id>")`: the first element with that id. -/
def querySelector (selector : String) (w : Window) : Option Element :=
  w.document.find? fun e => "#" ++ e.id = selector

namespace Auth

/-- The function `startApp` of packages/auth/src/bootstrap.js (lines 31-42).
The flag is `false` while the property is absent from the global scope. -/
def startApp (w : Window) : Window :=
  match querySelector "#_auth-dev-root" w with
  | some el =>
    if !w.__AUTH_DEV__ then
      let options : MountOptions := { defaultHistory := some (createBrowserHistory w.pathname) }
      { w with
        __AUTH_DEV__ := true
        authMountCalls := w.authMountCalls ++ [{ el := el, options := options }]
        authApps := w.authApps ++ [(mount el options).app] }
    else w
  | none => w

end Auth

namespace Dashboard

/-- Result of a call of the dashboard's `mount`. -/
structure Mounted where
  window : Window
  returned : Option Auth.Handle

/-- The function `mount` of packages/dashboard/src/bootstrap.js (lines 4-7):
it creates the Vue application and mounts it on `el`; the arrow function has a
block body without `return`. -/
def mount (el : Element) (w : Window) : Mounted :=
  { window := { w with dashboardMounts := w.dashboardMounts ++ [el] }
    returned := none }

/-- The function `startApp` of packages/dashboard/src/bootstrap.js (lines 9-15). -/
def startApp (w : Window) : Window :=
  match querySelector "#_dashboard-dev-root" w with
  | some devRoot => (mount devRoot w).window
  | none => w

end Dashboard

/-! ## Vocabulary of the statements -/

/-- A callback that only observes: it never calls back into the handle. -/
def observer : Callback := { forwards := fun _ => [] }

/-- A callback that relays each location it receives straight back into
`onParentNavigate` of the handle it was mounted with. -/
def relay : Callback := { forwards := fun loc => [loc] }

/-- A callback that, fired with pathname `source`, calls the handle with
pathname `target`, and does nothing otherwise. -/
def redirect (source target : String) : Callback :=
  { forwards := fun loc => if loc.pathname = source then [{ pathname := target }] else [] }

/-- A callback that answers `/a` with `/b` and anything else with `/a`: whatever
it is fired with, it calls the handle with another pathname. -/
def pingPong : Callback :=
  { forwards := fun loc =>
      if loc.pathname = "/a" then [{ pathname := "/b" }] else [{ pathname := "/a" }] }

/-- A callback echoes at `loc` when every location it forwards to the handle,
once fired with `loc`, has the pathname of `loc`: it does not call back into the
handle with another pathname. `observer` and `relay` echo at every location. -/
def Callback.EchoesAt (cb : Callback) (loc : Location) : Prop :=
  ∀ q ∈ cb.forwards loc, q.pathname = loc.pathname

/-- The firing events of `n` listeners registered at indices `i, i+1, ...`, each
fired once with `loc`. -/
def firings (loc : Location) : Nat → Nat → List Event
  | _, 0 => []
  | i, n + 1 => Event.fired i loc :: firings loc (i + 1) n

/-- The locations listener `k` was fired with, in order. -/
def firedWith (k : Nat) : List Event → List Location
  | [] => []
  | Event.fired i loc :: t => if i = k then loc :: firedWith k t else firedWith k t
  | _ :: t => firedWith k t

/-- The locations pushed in a trace, in order. -/
def pushedLocations : List Event → List Location
  | [] => []
  | Event.pushed p :: t => { pathname := p } :: pushedLocations t
  | _ :: t => pushedLocations t

/-- Number of pushes recorded in a trace. -/
def pushCount : List Event → Nat
  | [] => 0
  | Event.pushed _ :: t => pushCount t + 1
  | _ :: t => pushCount t

/-- Number of listener firings recorded in a trace. -/
def fireCount : List Event → Nat
  | [] => 0
  | Event.fired _ _ :: t => fireCount t + 1
  | _ :: t => fireCount t

/-- The options of the scenario of the specification: `{ initialPath: "/login" }`
together with an `onNavigate` callback. -/
def loginOptions (cb : Callback) : Auth.MountOptions :=
  { onNavigate := some cb, initialPath := some "/login" }

/-- Options that supply a controller at `/` on which `pingPong` already listens,
with `relay` as `onNavigate`. -/
def pingPongOptions : Auth.MountOptions :=
  { onNavigate := some relay
    defaultHistory := some ((createMemoryHistory ["/"]).listen pingPong) }

/-- An options object that carries a controller under the property name
`externalHistory`, which the parameter pattern of `mount` does not bind. -/
def externalHistoryOptions (h : History) : Auth.MountOptions :=
  { others := [("externalHistory", Auth.OptionValue.history h)] }

/-- A freshly loaded page: the given element ids in the document, the address
bar at `address`, no guard flag set, nothing mounted. -/
def freshPage (ids : List String) (address : String) : Window :=
  { document := ids.map fun i => { id := i }
    pathname := address
    __AUTH_DEV__ := false
    authMountCalls := []
    authApps := []
    dashboardMounts := [] }

/-- Evaluate `startApp` `n` times in the same window. -/
def evaluations (startApp : Window → Window) : Nat → Window → Window
  | 0, w => w
  | n + 1, w => evaluations startApp n (startApp w)

/-! ## Lemmas on the navigation controller -/

theorem observer_echoes (loc : Location) : observer.EchoesAt loc := by
  intro q hq
  simp [observer] at hq

theorem relay_echoes (loc : Location) : relay.EchoesAt loc := by
  intro q hq
  simp [relay] at hq
  rw [hq]

theorem firedWith_firings (loc : Location) (k : Nat) :
    ∀ n i, firedWith k (firings loc i n) = if i ≤ k ∧ k < i + n then [loc] else [] := by
  intro n
  induction n with
  | zero =>
    intro i
    have h0 : ¬ (i ≤ k ∧ k < i + 0) := by omega
    rw [if_neg h0]
    rfl
  | succ n ih =>
    intro i
    simp only [firings, firedWith, ih]
    by_cases hik : i = k
    · subst hik
      have h1 : ¬ (i + 1 ≤ i ∧ i < i + 1 + n) := by omega
      have h2 : i ≤ i ∧ i < i + (n + 1) := by omega
      simp [h1, h2]
    · by_cases h1 : i + 1 ≤ k ∧ k < i + 1 + n
      · have h2 : i ≤ k ∧ k < i + (n + 1) := by omega
        simp [hik, h1, h2]
      · have h2 : ¬ (i ≤ k ∧ k < i + (n + 1)) := by omega
        simp [hik, h1, h2]

theorem pushCount_firings (loc : Location) : ∀ n i, pushCount (firings loc i n) = 0 := by
  intro n
  induction n with
  | zero => intro i; rfl
  | succ n ih => intro i; simp [firings, pushCount, ih]

theorem fireCount_firings (loc : Location) : ∀ n i, fireCount (firings loc i n) = n := by
  intro n
  induction n with
  | zero => intro i; rfl
  | succ n ih => intro i; simp [firings, fireCount, ih]

/-- Forwarding locations whose pathname is the current one changes nothing. -/
theorem relayAll_same (fuel : Nat) (a : App) :
    ∀ qs : List Location, (∀ q ∈ qs, q.pathname = a.history.location.pathname) →
      relayAll (Auth.onParentNavigate (fuel + 1)) qs a = some a := by
  intro qs
  induction qs with
  | nil => intro _; rfl
  | cons q qs ih =>
    intro h
    have hq : q.pathname = a.history.location.pathname := h q (List.mem_cons_self _ _)
    have hrest : ∀ r ∈ qs, r.pathname = a.history.location.pathname :=
      fun r hr => h r (List.mem_cons_of_mem _ hr)
    have hcall : Auth.onParentNavigate (fuel + 1) q a = some a := by
      simp [Auth.onParentNavigate, hq]
    show (Auth.onParentNavigate (fuel + 1) q a).bind (relayAll _ qs) = some a
    rw [hcall]
    exact ih hrest

/-- Echoing listeners, notified of the current location, are each fired once
and leave the controller alone. -/
theorem notifyListeners_echo (fuel : Nat) (loc : Location) :
    ∀ (ls : List Callback) (i : Nat) (a : App), (∀ cb ∈ ls, cb.EchoesAt loc) →
      a.history.location.pathname = loc.pathname →
      notifyListeners (Auth.onParentNavigate (fuel + 1)) loc i ls a =
        some { a with trace := a.trace ++ firings loc i ls.length } := by
  intro ls
  induction ls with
  | nil => intro i a _ _; simp [notifyListeners, firings]
  | cons cb rest ih =>
    intro i a hecho hloc
    have hcb : cb.EchoesAt loc := hecho cb (List.mem_cons_self _ _)
    have hrest : ∀ c ∈ rest, c.EchoesAt loc := fun c hc => hecho c (List.mem_cons_of_mem _ hc)
    have hfw : ∀ q ∈ cb.forwards loc,
        q.pathname = ({ a with trace := a.trace ++ [Event.fired i loc] } : App).history.location.pathname := by
      intro q hq
      rw [hcb q hq]
      exact hloc.symm
    simp only [notifyListeners, relayAll_same fuel _ _ hfw, Option.some_bind]
    rw [ih (i + 1) { a with trace := a.trace ++ [Event.fired i loc] } hrest hloc]
    simp [firings]

/-- A push on a controller whose listeners echo. -/
theorem push_echo (fuel : Nat) (path : String) (a : App)
    (hecho : ∀ cb ∈ a.history.listeners, cb.EchoesAt { pathname := path }) :
    push (Auth.onParentNavigate (fuel + 1)) path a =
      some { history := a.history.pushEntry path
             trace := a.trace ++ Event.pushed path ::
               firings { pathname := path } 0 a.history.listeners.length } := by
  unfold push
  have h := notifyListeners_echo fuel { pathname := path } (a.history.pushEntry path).listeners 0
    { history := a.history.pushEntry path, trace := a.trace ++ [Event.pushed path] } hecho rfl
  simp only [History.pushEntry] at h ⊢
  rw [h]
  simp

/-! ## The set of listeners only changes in `mount` -/

theorem relayAll_listeners (call : Location → App → Option App)
    (hcall : ∀ q a b, call q a = some b → b.history.listeners = a.history.listeners) :
    ∀ (qs : List Location) (a b : App), relayAll call qs a = some b →
      b.history.listeners = a.history.listeners := by
  intro qs
  induction qs with
  | nil =>
    intro a b h
    simp only [relayAll, Option.some.injEq] at h
    rw [← h]
  | cons q qs ih =>
    intro a b h
    simp only [relayAll, Option.bind_eq_some] at h
    obtain ⟨c, hc, hb⟩ := h
    rw [ih c b hb, hcall q a c hc]

theorem notifyListeners_listeners (call : Location → App → Option App)
    (hcall : ∀ q a b, call q a = some b → b.history.listeners = a.history.listeners)
    (loc : Location) :
    ∀ (ls : List Callback) (i : Nat) (a b : App), notifyListeners call loc i ls a = some b →
      b.history.listeners = a.history.listeners := by
  intro ls
  induction ls with
  | nil =>
    intro i a b h
    simp only [notifyListeners, Option.some.injEq] at h
    rw [← h]
  | cons cb rest ih =>
    intro i a b h
    simp only [notifyListeners, Option.bind_eq_some] at h
    obtain ⟨c, hc, hb⟩ := h
    rw [ih (i + 1) c b hb, relayAll_listeners call hcall _ _ c hc]

theorem push_listeners (call : Location → App → Option App)
    (hcall : ∀ q a b, call q a = some b → b.history.listeners = a.history.listeners)
    (path : String) (a b : App) (h : push call path a = some b) :
    b.history.listeners = a.history.listeners := by
  unfold push at h
  rw [notifyListeners_listeners call hcall _ _ _ _ b h]
  rfl

theorem onParentNavigate_listeners :
    ∀ (fuel : Nat) (next : Location) (a b : App), Auth.onParentNavigate fuel next a = some b →
      b.history.listeners = a.history.listeners := by
  intro fuel
  induction fuel with
  | zero =>
    intro next a b h
    simp [Auth.onParentNavigate] at h
  | succ fuel ih =>
    intro next a b h
    simp only [Auth.onParentNavigate] at h
    split at h
    · exact push_listeners _ ih _ a b h
    · simp only [Option.some.injEq] at h
      rw [← h]

theorem navigateAll_listeners (fuel : Nat) :
    ∀ (ps : List String) (a b : App), Auth.navigateAll fuel ps a = some b →
      b.history.listeners = a.history.listeners := by
  intro ps
  induction ps with
  | nil =>
    intro a b h
    simp only [Auth.navigateAll, Option.some.injEq] at h
    rw [← h]
  | cons p ps ih =>
    intro a b h
    simp only [Auth.navigateAll, Option.bind_eq_some] at h
    obtain ⟨c, hc, hb⟩ := h
    rw [ih c b hb]
    exact push_listeners _ (onParentNavigate_listeners fuel) p a c hc

/-- The listeners after `mount`: those of the chosen controller, then
`onNavigate` when it is supplied. -/
theorem mount_listeners (el : Element) (options : Auth.MountOptions) :
    (Auth.mount el options).app.history.listeners =
      (Auth.chooseHistory options).listeners ++ options.onNavigate.toList := by
  unfold Auth.mount
  cases h : options.onNavigate <;> simp [History.listen]

/-- A forwarded navigation to another pathname, on a controller whose listeners
echo: one push, each listener fired once with the new location. -/
theorem onParentNavigate_echo_ne (depth : Nat) (next : Location) (a : App)
    (hecho : ∀ cb ∈ a.history.listeners, cb.EchoesAt { pathname := next.pathname })
    (hne : next.pathname ≠ a.history.location.pathname) :
    Auth.onParentNavigate (depth + 2) next a =
      some { history := a.history.pushEntry next.pathname
             trace := a.trace ++ Event.pushed next.pathname ::
               firings { pathname := next.pathname } 0 a.history.listeners.length } := by
  have hne2 : a.history.location.pathname ≠ next.pathname := fun h => hne h.symm
  rw [← push_echo depth next.pathname a hecho]
  simp [Auth.onParentNavigate, hne2]

/-- A forwarded navigation to the current pathname. -/
theorem onParentNavigate_eq (depth : Nat) (next : Location) (a : App)
    (hsame : next.pathname = a.history.location.pathname) :
    Auth.onParentNavigate (depth + 1) next a = some a := by
  simp [Auth.onParentNavigate, hsame]

/-! ## Every push fires every listener once -/

theorem firedWith_append (k : Nat) (t : List Event) :
    ∀ s : List Event, firedWith k (s ++ t) = firedWith k s ++ firedWith k t := by
  intro s
  induction s with
  | nil => rfl
  | cons e s ih =>
    cases e with
    | rendered el => simpa [firedWith] using ih
    | pushed p => simpa [firedWith] using ih
    | fired i loc =>
      by_cases hik : i = k
      · simp [firedWith, hik, ih]
      · simp [firedWith, hik, ih]

theorem pushedLocations_append (t : List Event) :
    ∀ s : List Event, pushedLocations (s ++ t) = pushedLocations s ++ pushedLocations t := by
  intro s
  induction s with
  | nil => rfl
  | cons e s ih =>
    cases e with
    | rendered el => simpa [pushedLocations] using ih
    | pushed p => simp [pushedLocations, ih]
    | fired i loc => simpa [pushedLocations] using ih

/-- Between `a` and `b` the trace only grew, and in what was added listener `k`
was fired with each location as often as that location was pushed. -/
def FiredPerPush (k : Nat) (a b : App) : Prop :=
  ∃ suffix, b.trace = a.trace ++ suffix ∧
    ∀ x : Location, (firedWith k suffix).count x = (pushedLocations suffix).count x

theorem relayAll_firedPerPush (k : Nat) (call : Location → App → Option App)
    (hl : ∀ q a b, call q a = some b → b.history.listeners = a.history.listeners)
    (hf : ∀ q a b, call q a = some b → k < a.history.listeners.length → FiredPerPush k a b) :
    ∀ (qs : List Location) (a b : App), relayAll call qs a = some b →
      k < a.history.listeners.length → FiredPerPush k a b := by
  intro qs
  induction qs with
  | nil =>
    intro a b h _
    simp only [relayAll, Option.some.injEq] at h
    exact ⟨[], by rw [← h]; simp, fun _ => rfl⟩
  | cons q qs ih =>
    intro a b h hk
    simp only [relayAll, Option.bind_eq_some] at h
    obtain ⟨c, hc, hb⟩ := h
    have hkc : k < c.history.listeners.length := by rw [hl q a c hc]; exact hk
    obtain ⟨s1, ht1, hc1⟩ := hf q a c hc hk
    obtain ⟨s2, ht2, hc2⟩ := ih c b hb hkc
    refine ⟨s1 ++ s2, by rw [ht2, ht1, List.append_assoc], ?_⟩
    intro x
    rw [firedWith_append, pushedLocations_append, List.count_append, List.count_append,
      hc1 x, hc2 x]

/-- Notifying the listeners `ls`, registered from index `i` on, of `loc`: besides
what nested pushes add, listener `k` is fired once with `loc` when it is one of
them. -/
theorem notifyListeners_firedPerPush (k : Nat) (call : Location → App → Option App)
    (hl : ∀ q a b, call q a = some b → b.history.listeners = a.history.listeners)
    (hf : ∀ q a b, call q a = some b → k < a.history.listeners.length → FiredPerPush k a b)
    (loc : Location) :
    ∀ (ls : List Callback) (i : Nat) (a b : App), notifyListeners call loc i ls a = some b →
      k < a.history.listeners.length →
      ∃ suffix, b.trace = a.trace ++ suffix ∧
        ∀ x : Location, (firedWith k suffix).count x =
          (if i ≤ k ∧ k < i + ls.length then [loc] else []).count x +
            (pushedLocations suffix).count x := by
  intro ls
  induction ls with
  | nil =>
    intro i a b h _
    simp only [notifyListeners, Option.some.injEq] at h
    have h0 : ¬ (i ≤ k ∧ k < i + ([] : List Callback).length) := by
      simp only [List.length_nil]
      omega
    refine ⟨[], by rw [← h]; simp, ?_⟩
    intro x
    rw [if_neg h0]
    rfl
  | cons cb rest ih =>
    intro i a b h hk
    simp only [notifyListeners, Option.bind_eq_some] at h
    obtain ⟨c, hc, hb⟩ := h
    have hk1 : k < ({ a with trace := a.trace ++ [Event.fired i loc] } : App).history.listeners.length :=
      hk
    have hkc : k < c.history.listeners.length := by
      rw [relayAll_listeners call hl _ _ c hc]
      exact hk
    obtain ⟨s1, ht1, hc1⟩ := relayAll_firedPerPush k call hl hf _ _ c hc hk1
    obtain ⟨s2, ht2, hc2⟩ := ih (i + 1) c b hb hkc
    refine ⟨Event.fired i loc :: (s1 ++ s2), ?_, ?_⟩
    · rw [ht2, ht1]
      simp
    · intro x
      have e1 := hc1 x
      have e2 := hc2 x
      simp only [firedWith, pushedLocations, firedWith_append, pushedLocations_append,
        List.count_append, List.length_cons] at e1 e2 ⊢
      by_cases hik : i = k
      · subst hik
        have hA : i ≤ i ∧ i < i + (rest.length + 1) := by omega
        have hB : ¬ (i + 1 ≤ i ∧ i < i + 1 + rest.length) := by omega
        rw [if_neg hB] at e2
        rw [if_pos hA, if_pos rfl, List.count_cons, List.count_append]
        simp only [List.count_nil, Nat.zero_add] at e2
        rw [e1, e2]
        simp only [List.count_cons, List.count_nil]
        omega
      · rw [if_neg hik, List.count_append, e1, e2]
        by_cases hB : i + 1 ≤ k ∧ k < i + 1 + rest.length
        · have hA : i ≤ k ∧ k < i + (rest.length + 1) := by omega
          rw [if_pos hA, if_pos hB]
          omega
        · have hA : ¬ (i ≤ k ∧ k < i + (rest.length + 1)) := by omega
          rw [if_neg hA, if_neg hB]
          omega

/-- A push that returns: the trace grows by the push and by what its listeners
cause, and listener `k` was fired once per push. -/
theorem push_firedPerPush (k : Nat) (call : Location → App → Option App)
    (hl : ∀ q a b, call q a = some b → b.history.listeners = a.history.listeners)
    (hf : ∀ q a b, call q a = some b → k < a.history.listeners.length → FiredPerPush k a b)
    (path : String) (a b : App) (h : push call path a = some b)
    (hk : k < a.history.listeners.length) :
    ∃ rest, b.trace = a.trace ++ Event.pushed path :: rest ∧
      ∀ x : Location, (firedWith k (Event.pushed path :: rest)).count x =
        (pushedLocations (Event.pushed path :: rest)).count x := by
  unfold push at h
  obtain ⟨s, ht, hc⟩ := notifyListeners_firedPerPush k call hl hf _ _ 0 _ b h hk
  refine ⟨s, by rw [ht]; simp, ?_⟩
  intro x
  have e := hc x
  have hA : 0 ≤ k ∧ k < 0 + (a.history.pushEntry path).listeners.length := by
    simp only [History.pushEntry]
    omega
  rw [if_pos hA] at e
  simp only [firedWith, pushedLocations, List.count_cons, List.count_nil,
    History.pushEntry] at e ⊢
  omega

theorem onParentNavigate_firedPerPush (k : Nat) :
    ∀ (fuel : Nat) (next : Location) (a b : App), Auth.onParentNavigate fuel next a = some b →
      k < a.history.listeners.length → FiredPerPush k a b := by
  intro fuel
  induction fuel with
  | zero =>
    intro next a b h
    simp [Auth.onParentNavigate] at h
  | succ fuel ih =>
    intro next a b h hk
    simp only [Auth.onParentNavigate] at h
    split at h
    · obtain ⟨rest, ht, hc⟩ :=
        push_firedPerPush k _ (onParentNavigate_listeners fuel) ih _ a b h hk
      exact ⟨_, ht, hc⟩
    · simp only [Option.some.injEq] at h
      exact ⟨[], by rw [← h]; simp, fun _ => rfl⟩

/-! ## Listeners that navigate -/

theorem pingPong_forwards (loc : Location) :
    ∃ q : Location, pingPong.forwards loc = [q] ∧ q.pathname ≠ loc.pathname := by
  by_cases ha : loc.pathname = "/a"
  · refine ⟨{ pathname := "/b" }, by simp [pingPong, ha], ?_⟩
    rw [ha]
    decide
  · exact ⟨{ pathname := "/a" }, by simp [pingPong, ha], fun h => ha h.symm⟩

/-- With `pingPong` as first listener, a forwarded navigation to another pathname
never returns: every nesting bound is exceeded. -/
theorem pingPong_never_returns (rest : List Callback) :
    ∀ (fuel : Nat) (next : Location) (a : App), a.history.listeners = pingPong :: rest →
      next.pathname ≠ a.history.location.pathname →
      Auth.onParentNavigate fuel next a = none := by
  intro fuel
  induction fuel with
  | zero => intro next a _ _; rfl
  | succ fuel ih =>
    intro next a hls hne
    have hne2 : a.history.location.pathname ≠ next.pathname := fun h => hne h.symm
    obtain ⟨q, hq, hqne⟩ := pingPong_forwards { pathname := next.pathname }
    have hl1 : (a.history.pushEntry next.pathname).listeners = pingPong :: rest := hls
    simp only [Auth.onParentNavigate, ne_eq, hne2, not_false_eq_true, if_true]
    show notifyListeners (Auth.onParentNavigate fuel) { pathname := next.pathname } 0
      (a.history.pushEntry next.pathname).listeners
      { history := a.history.pushEntry next.pathname
        trace := a.trace ++ [Event.pushed next.pathname] } = none
    rw [hl1]
    simp only [notifyListeners, hq, relayAll]
    rw [ih q
      { history := a.history.pushEntry next.pathname
        trace := a.trace ++ [Event.pushed next.pathname] ++
          [Event.fired 0 { pathname := next.pathname }] } hl1 hqne]
    rfl

/-! ## The result does not depend on the nesting bound -/

theorem relayAll_mono (call call2 : Location → App → Option App)
    (hcc : ∀ q a b, call q a = some b → call2 q a = some b) :
    ∀ (qs : List Location) (a b : App), relayAll call qs a = some b →
      relayAll call2 qs a = some b := by
  intro qs
  induction qs with
  | nil => intro a b h; exact h
  | cons q qs ih =>
    intro a b h
    simp only [relayAll, Option.bind_eq_some] at h ⊢
    obtain ⟨c, hc, hb⟩ := h
    exact ⟨c, hcc q a c hc, ih c b hb⟩

theorem notifyListeners_mono (call call2 : Location → App → Option App)
    (hcc : ∀ q a b, call q a = some b → call2 q a = some b) (loc : Location) :
    ∀ (ls : List Callback) (i : Nat) (a b : App), notifyListeners call loc i ls a = some b →
      notifyListeners call2 loc i ls a = some b := by
  intro ls
  induction ls with
  | nil => intro i a b h; exact h
  | cons cb rest ih =>
    intro i a b h
    simp only [notifyListeners, Option.bind_eq_some] at h ⊢
    obtain ⟨c, hc, hb⟩ := h
    exact ⟨c, relayAll_mono call call2 hcc _ _ c hc, ih (i + 1) c b hb⟩

theorem onParentNavigate_succ :
    ∀ (fuel : Nat) (next : Location) (a b : App), Auth.onParentNavigate fuel next a = some b →
      Auth.onParentNavigate (fuel + 1) next a = some b := by
  intro fuel
  induction fuel with
  | zero =>
    intro next a b h
    simp [Auth.onParentNavigate] at h
  | succ fuel ih =>
    intro next a b h
    simp only [Auth.onParentNavigate] at h
    split at h
    · next hne =>
      have h2 : push (Auth.onParentNavigate (fuel + 1)) next.pathname a = some b :=
        notifyListeners_mono _ _ ih _ _ _ _ b h
      show (if a.history.location.pathname ≠ next.pathname then
        push (Auth.onParentNavigate (fuel + 1)) next.pathname a else some a) = some b
      rw [if_pos hne]
      exact h2
    · next heq =>
      show (if a.history.location.pathname ≠ next.pathname then
        push (Auth.onParentNavigate (fuel + 1)) next.pathname a else some a) = some b
      rw [if_neg heq]
      exact h

theorem onParentNavigate_mono (next : Location) (a b : App) (m : Nat)
    (h : Auth.onParentNavigate m next a = some b) :
    ∀ n, m ≤ n → Auth.onParentNavigate n next a = some b := by
  intro n hmn
  induction n with
  | zero =>
    have hm : m = 0 := by omega
    rw [← hm]
    exact h
  | succ n ih =>
    by_cases hle : m ≤ n
    · exact onParentNavigate_succ n next a b (ih hle)
    · have hm : m = n + 1 := by omega
      rw [← hm]
      exact h

/-- Two runs of the same call that return, under any two nesting bounds, return
the same state. -/
theorem onParentNavigate_unique (next : Location) (a b c : App) (m n : Nat)
    (hb : Auth.onParentNavigate m next a = some b)
    (hc : Auth.onParentNavigate n next a = some c) : b = c := by
  have h1 := onParentNavigate_mono next a b m hb (max m n) (Nat.le_max_left m n)
  have h2 := onParentNavigate_mono next a c n hc (max m n) (Nat.le_max_right m n)
  rw [h1] at h2
  exact Option.some.inj h2

/-! ## Forwarded navigation (`onParentNavigate`) -/

/-- C1: after any sequence of navigation pushes on the controller of a handle
returned by auth's `mount`, calling the handle's `onParentNavigate` with a
location whose pathname is the controller's current pathname returns and leaves
the whole state as the pushes left it: same entry stack, index and location (no
push) and same trace (no listener fired). -/
theorem onParentNavigate_current_pathname_noop (el : Element) (options : Auth.MountOptions)
    (handle : Auth.Handle) (hret : (Auth.mount el options).returned = some handle)
    (fuel : Nat) (ps : List String) (a : App)
    (hreach : Auth.navigateAll fuel ps (Auth.mount el options).app = some a)
    (next : Location) (hsame : next.pathname = a.history.location.pathname) (depth : Nat) :
    handle.onParentNavigate (depth + 1) next a = some a ∧
      (Auth.navigateAll fuel ps (Auth.mount el options).app).bind
          (handle.onParentNavigate (depth + 1) next) =
        Auth.navigateAll fuel ps (Auth.mount el options).app := by
  simp only [Auth.mount, Option.some.injEq] at hret
  subst hret
  have hcall := onParentNavigate_eq depth next a hsame
  refine ⟨hcall, ?_⟩
  rw [hreach, Option.some_bind]
  exact hcall

theorem onParentNavigate_current_pathname_noop_witness :
    (Auth.navigateAll 2 ["/signup", "/reset"]
        (Auth.mount { id := "root" } (loginOptions relay)).app).bind
        (Auth.onParentNavigate 1 { pathname := "/reset", search := "?tab=1" }) =
      Auth.navigateAll 2 ["/signup", "/reset"]
        (Auth.mount { id := "root" } (loginOptions relay)).app :=
  (onParentNavigate_current_pathname_noop { id := "root" } (loginOptions relay)
    { onParentNavigate := Auth.onParentNavigate } rfl 2 ["/signup", "/reset"] _ rfl
    { pathname := "/reset", search := "?tab=1" } rfl 0).2

/-- C2 (fails as stated): with an `onNavigate` callback that answers `/signup`
by calling the handle with `/login2`, `onParentNavigate` with `/signup` from
`/login` returns with the controller at `/login2` after two pushes, the listener
fired twice; under no nesting bound does the call return with the controller at
`/signup`. -/
theorem redirecting_onNavigate_moves_on :
    (∃ b, Auth.onParentNavigate 2 { pathname := "/signup" }
        (Auth.mount { id := "root" } (loginOptions (redirect "/signup" "/login2"))).app =
          some b ∧
      b.history.location.pathname = "/login2" ∧
      b.trace = [Event.rendered { id := "root" },
        Event.pushed "/signup", Event.fired 0 { pathname := "/signup" },
        Event.pushed "/login2", Event.fired 0 { pathname := "/login2" }]) ∧
    ¬ ∃ fuel b, Auth.onParentNavigate fuel { pathname := "/signup" }
        (Auth.mount { id := "root" } (loginOptions (redirect "/signup" "/login2"))).app =
          some b ∧
      b.history.location.pathname = "/signup" := by
  refine ⟨⟨_, rfl, rfl, rfl⟩, ?_⟩
  rintro ⟨fuel, b, h, hp⟩
  have h2 : Auth.onParentNavigate 2 { pathname := "/signup" }
      (Auth.mount { id := "root" } (loginOptions (redirect "/signup" "/login2"))).app =
        some _ := rfl
  have hb := onParentNavigate_unique _ _ _ _ _ _ h h2
  rw [hb] at hp
  revert hp
  decide

/-- C2 (amended): on a handle returned by auth's `mount` with an `onNavigate`
callback, in any state reached by navigation pushes, `onParentNavigate` with a
pathname P other than the current one returns (nesting depth 2 is enough),
leaves the controller at pathname P, performs one push, and fires the
`onNavigate` listener exactly once, with the new location, provided no listener
on the controller, fired with the location of pathname P, calls back into the
handle with another pathname. -/
theorem onParentNavigate_new_pathname (el : Element) (options : Auth.MountOptions)
    (cb : Callback) (hcb : options.onNavigate = some cb)
    (handle : Auth.Handle) (hret : (Auth.mount el options).returned = some handle)
    (fuel : Nat) (ps : List String) (a : App)
    (hreach : Auth.navigateAll fuel ps (Auth.mount el options).app = some a)
    (next : Location) (hne : next.pathname ≠ a.history.location.pathname)
    (hecho : ∀ l ∈ (Auth.mount el options).app.history.listeners,
      l.EchoesAt { pathname := next.pathname })
    (depth : Nat) :
    ∃ b suffix, handle.onParentNavigate (depth + 2) next a = some b ∧
      b.history.location = { pathname := next.pathname } ∧
      b.trace = a.trace ++ suffix ∧
      pushCount suffix = 1 ∧
      firedWith (Auth.chooseHistory options).listeners.length suffix =
        [{ pathname := next.pathname }] := by
  simp only [Auth.mount, Option.some.injEq] at hret
  subst hret
  have hls := navigateAll_listeners fuel ps _ a hreach
  have hecho2 : ∀ l ∈ a.history.listeners, l.EchoesAt { pathname := next.pathname } := by
    rw [hls]
    exact hecho
  have hlen : a.history.listeners.length = (Auth.chooseHistory options).listeners.length + 1 := by
    rw [hls, mount_listeners, hcb]
    simp
  refine ⟨_, _, onParentNavigate_echo_ne depth next a hecho2 hne, rfl, rfl, ?_, ?_⟩
  · simp [pushCount, pushCount_firings]
  · simp only [firedWith, firedWith_firings, hlen]
    simp

theorem onParentNavigate_new_pathname_witness :
    ∃ b suffix, Auth.onParentNavigate 2 { pathname := "/signup" }
        (Auth.mount { id := "root" } (loginOptions relay)).app = some b ∧
      b.history.location = { pathname := "/signup" } ∧
      b.trace = (Auth.mount { id := "root" } (loginOptions relay)).app.trace ++ suffix ∧
      pushCount suffix = 1 ∧
      firedWith 0 suffix = [{ pathname := "/signup" }] :=
  onParentNavigate_new_pathname { id := "root" } (loginOptions relay) relay rfl
    { onParentNavigate := Auth.onParentNavigate } rfl 0 [] _ rfl
    { pathname := "/signup" } (by decide)
    (by
      intro l hl
      rw [mount_listeners] at hl
      simp [loginOptions, Auth.chooseHistory, createMemoryHistory] at hl
      rw [hl]
      exact relay_echoes _)
    0

/-- C3 (fails as stated): `onNavigate` is the relay, but the supplied controller
already carries the listener `pingPong`; `onParentNavigate` with `/a` from `/`
then returns under no nesting bound. -/
theorem relay_with_pingPong_never_returns :
    pingPongOptions.onNavigate = some relay ∧
    ¬ ∃ fuel b, Auth.onParentNavigate fuel { pathname := "/a" }
        (Auth.mount { id := "root" } pingPongOptions).app = some b := by
  refine ⟨rfl, ?_⟩
  rintro ⟨fuel, b, h⟩
  have hnone := pingPong_never_returns [relay] fuel { pathname := "/a" }
    (Auth.mount { id := "root" } pingPongOptions).app rfl (by decide)
  rw [hnone] at h
  cases h

/-- C3 (amended): when the `onNavigate` callback passed to auth's `mount` relays
every location it receives straight back into the same handle's
`onParentNavigate`, and no listener already on a supplied controller, fired
with the location of pathname P, calls back into the handle with another
pathname, then in every state reached by navigation pushes one call of
`onParentNavigate` with P returns (nesting depth 2 is enough), with at most one
push on the controller, which ends at pathname P. -/
theorem relay_loop_is_broken (el : Element) (options : Auth.MountOptions)
    (hcb : options.onNavigate = some relay)
    (handle : Auth.Handle) (hret : (Auth.mount el options).returned = some handle)
    (fuel : Nat) (ps : List String) (a : App)
    (hreach : Auth.navigateAll fuel ps (Auth.mount el options).app = some a)
    (next : Location)
    (hpre : ∀ l ∈ (Auth.chooseHistory options).listeners,
      l.EchoesAt { pathname := next.pathname })
    (depth : Nat) :
    ∃ b suffix, handle.onParentNavigate (depth + 2) next a = some b ∧
      b.trace = a.trace ++ suffix ∧
      pushCount suffix ≤ 1 ∧
      b.history.entries.length ≤ a.history.entries.length + 1 ∧
      b.history.location.pathname = next.pathname := by
  simp only [Auth.mount, Option.some.injEq] at hret
  subst hret
  have hls := navigateAll_listeners fuel ps _ a hreach
  have hecho : ∀ l ∈ a.history.listeners, l.EchoesAt { pathname := next.pathname } := by
    rw [hls, mount_listeners, hcb]
    intro l hl
    simp only [Option.toList, List.mem_append, List.mem_singleton] at hl
    rcases hl with hl | hl
    · exact hpre l hl
    · rw [hl]
      exact relay_echoes _
  by_cases hsame : next.pathname = a.history.location.pathname
  · refine ⟨a, [], onParentNavigate_eq (depth + 1) next a hsame, ?_, ?_, ?_, hsame.symm⟩
    · simp
    · simp [pushCount]
    · omega
  · refine ⟨_, _, onParentNavigate_echo_ne depth next a hecho hsame, rfl, ?_, ?_, rfl⟩
    · simp [pushCount, pushCount_firings]
    · simp only [History.pushEntry, List.length_append, List.length_take, List.length_singleton]
      omega

theorem relay_loop_is_broken_witness :
    ∃ b suffix, Auth.onParentNavigate 2 { pathname := "/signup" }
        (Auth.mount { id := "root" }
          { onNavigate := some relay
            defaultHistory := some ((createBrowserHistory "/login").listen observer) }).app =
          some b ∧
      b.trace = [Event.rendered { id := "root" }] ++ suffix ∧
      pushCount suffix ≤ 1 ∧
      b.history.entries.length ≤ 1 + 1 ∧
      b.history.location.pathname = "/signup" :=
  relay_loop_is_broken { id := "root" }
    { onNavigate := some relay
      defaultHistory := some ((createBrowserHistory "/login").listen observer) } rfl
    { onParentNavigate := Auth.onParentNavigate } rfl 0 [] _ rfl
    { pathname := "/signup" }
    (by
      intro l hl
      simp [Auth.chooseHistory, createBrowserHistory, History.listen] at hl
      rw [hl]
      exact observer_echoes _)
    0

/-! ## Standalone bootstrap (`startApp`) -/

theorem auth_startApp_flag_set (w : Window) (hflag : w.__AUTH_DEV__ = true) :
    Auth.startApp w = w := by
  unfold Auth.startApp
  cases querySelector "#_auth-dev-root" w <;> simp [hflag]

theorem auth_startApp_no_root (w : Window) (h : querySelector "#_auth-dev-root" w = none) :
    Auth.startApp w = w := by
  simp [Auth.startApp, h]

theorem auth_startApp_first (w : Window) (el : Element)
    (hel : querySelector "#_auth-dev-root" w = some el) (hflag : w.__AUTH_DEV__ = false) :
    Auth.startApp w =
      { w with
        __AUTH_DEV__ := true
        authMountCalls := w.authMountCalls ++
          [{ el := el
             options := { defaultHistory := some (createBrowserHistory w.pathname) } }]
        authApps := w.authApps ++
          [(Auth.mount el { defaultHistory := some (createBrowserHistory w.pathname) }).app] } := by
  simp [Auth.startApp, hel, hflag]

/-- C4: auth's `startApp`. With the element `#_auth-dev-root` present and the
flag `__AUTH_DEV__` unset, it sets the flag to true and invokes `mount` exactly
once, on that element, with a browser-backed controller as `defaultHistory`.
With the flag already set it changes nothing: no `mount`, flag still set. -/
theorem auth_startApp_guarded :
    (∀ (w : Window) (el : Element), querySelector "#_auth-dev-root" w = some el →
      w.__AUTH_DEV__ = false →
      (Auth.startApp w).__AUTH_DEV__ = true ∧
      (Auth.startApp w).authMountCalls = w.authMountCalls ++
        [{ el := el
           options := { defaultHistory := some (createBrowserHistory w.pathname) } }] ∧
      (createBrowserHistory w.pathname).backing = Backing.browser ∧
      (Auth.startApp w).authApps = w.authApps ++
        [(Auth.mount el { defaultHistory := some (createBrowserHistory w.pathname) }).app] ∧
      (Auth.startApp w).authMountCalls.length = w.authMountCalls.length + 1) ∧
    (∀ w : Window, w.__AUTH_DEV__ = true →
      Auth.startApp w = w ∧ (Auth.startApp w).__AUTH_DEV__ = true) := by
  constructor
  · intro w el hel hflag
    rw [auth_startApp_first w el hel hflag]
    simp [createBrowserHistory]
  · intro w hflag
    rw [auth_startApp_flag_set w hflag]
    exact ⟨rfl, hflag⟩

theorem auth_startApp_guarded_witness :
    (Auth.startApp (freshPage ["_auth-dev-root"] "/auth/signin")).__AUTH_DEV__ = true ∧
    (Auth.startApp (freshPage ["_auth-dev-root"] "/auth/signin")).authMountCalls.length = 1 ∧
    Auth.startApp (Auth.startApp (freshPage ["_auth-dev-root"] "/auth/signin")) =
      Auth.startApp (freshPage ["_auth-dev-root"] "/auth/signin") :=
  have h := auth_startApp_guarded.1 (freshPage ["_auth-dev-root"] "/auth/signin")
    { id := "_auth-dev-root" } (by decide) rfl
  ⟨h.1, h.2.2.2.2,
    (auth_startApp_guarded.2 (Auth.startApp (freshPage ["_auth-dev-root"] "/auth/signin")) h.1).1⟩

/-- C5: for auth and for dashboard, when the bundle's dev-root element is absent
from the document, `startApp` leaves the window as it is, whatever the guard
flag: no `mount`, no state change. -/
theorem startApp_without_dev_root (w : Window) :
    (querySelector "#_auth-dev-root" w = none →
      Auth.startApp w = w ∧ (Auth.startApp w).authMountCalls = w.authMountCalls ∧
        (Auth.startApp w).__AUTH_DEV__ = w.__AUTH_DEV__) ∧
    (querySelector "#_dashboard-dev-root" w = none →
      Dashboard.startApp w = w ∧ (Dashboard.startApp w).dashboardMounts = w.dashboardMounts) := by
  constructor
  · intro h
    rw [auth_startApp_no_root w h]
    exact ⟨rfl, rfl, rfl⟩
  · intro h
    have hs : Dashboard.startApp w = w := by simp [Dashboard.startApp, h]
    rw [hs]
    exact ⟨rfl, rfl⟩

theorem startApp_without_dev_root_witness :
    Auth.startApp (freshPage ["root"] "/") = freshPage ["root"] "/" ∧
    Dashboard.startApp (freshPage ["root"] "/") = freshPage ["root"] "/" :=
  ⟨((startApp_without_dev_root (freshPage ["root"] "/")).1 (by decide)).1,
   ((startApp_without_dev_root (freshPage ["root"] "/")).2 (by decide)).1⟩

/-- Auth's guard: `n` evaluations of `startApp` starting with the flag unset
invoke `mount` at most once. -/
theorem auth_evaluations_mount_le_one (n : Nat) (w : Window) :
    (evaluations Auth.startApp n w).authMountCalls.length ≤ w.authMountCalls.length + 1 ∧
    (w.__AUTH_DEV__ = true → evaluations Auth.startApp n w = w) := by
  induction n generalizing w with
  | zero => exact ⟨Nat.le_succ _, fun _ => rfl⟩
  | succ n ih =>
    have hset : w.__AUTH_DEV__ = true → evaluations Auth.startApp (n + 1) w = w := by
      intro hflag
      show evaluations Auth.startApp n (Auth.startApp w) = w
      rw [auth_startApp_flag_set w hflag]
      exact (ih w).2 hflag
    refine ⟨?_, hset⟩
    cases hflag : w.__AUTH_DEV__ with
    | true => rw [hset hflag]; exact Nat.le_succ _
    | false =>
      show (evaluations Auth.startApp n (Auth.startApp w)).authMountCalls.length ≤ _
      cases hel : querySelector "#_auth-dev-root" w with
      | none =>
        rw [auth_startApp_no_root w hel]
        exact (ih w).1
      | some el =>
        have h := auth_startApp_first w el hel hflag
        have hset2 : (Auth.startApp w).__AUTH_DEV__ = true := by rw [h]
        rw [(ih (Auth.startApp w)).2 hset2, h]
        simp

/-- The dashboard has no guard: with its dev-root present, every evaluation of
`startApp` invokes `mount`. -/
theorem dashboard_evaluations_mounts (el : Element) (n : Nat) (w : Window)
    (hel : querySelector "#_dashboard-dev-root" w = some el) :
    (evaluations Dashboard.startApp n w).dashboardMounts.length = w.dashboardMounts.length + n := by
  induction n generalizing w with
  | zero => rfl
  | succ n ih =>
    have hq : querySelector "#_dashboard-dev-root" (Dashboard.startApp w) = some el := by
      simp only [Dashboard.startApp, hel, Dashboard.mount]
      exact hel
    show (evaluations Dashboard.startApp n (Dashboard.startApp w)).dashboardMounts.length = _
    rw [ih (Dashboard.startApp w) hq]
    simp only [Dashboard.startApp, hel, Dashboard.mount, List.length_append, List.length_singleton]
    omega

/-- C8 (fails for the dashboard): on a fresh page that contains
`#_dashboard-dev-root`, two evaluations of the dashboard's `startApp` invoke its
`mount` twice, on the same element. -/
theorem dashboard_startApp_mounts_twice :
    (evaluations Dashboard.startApp 2 (freshPage ["_dashboard-dev-root"] "/")).dashboardMounts =
      [{ id := "_dashboard-dev-root" }, { id := "_dashboard-dev-root" }] := by
  decide

/-! ## The `mount` contract -/

/-- C6 (fails as stated): a controller at `/dash` passed under the property name
`externalHistory` is not used. `mount` creates a memory controller at `/`, and
`onParentNavigate` with pathname `/dash` pushes on it. -/
theorem externalHistory_is_not_read :
    (Auth.mount { id := "root" }
        (externalHistoryOptions (createMemoryHistory ["/dash"]))).app.history.entries =
      [{ pathname := "/" }] ∧
    ∃ b, Auth.onParentNavigate 1 { pathname := "/dash" }
        (Auth.mount { id := "root" }
          (externalHistoryOptions (createMemoryHistory ["/dash"]))).app = some b ∧
      b.trace = [Event.rendered { id := "root" }, Event.pushed "/dash"] ∧
      b.history.entries = [{ pathname := "/" }, { pathname := "/dash" }] :=
  ⟨rfl, _, rfl, rfl, rfl⟩

/-- C6 (amended): a controller supplied under the property name `defaultHistory`
is the one `mount` uses, with no controller created: same backing, entries,
index and location, and its listeners followed by `onNavigate` when supplied.
For a supplied controller at `/dash`, `onParentNavigate` with pathname `/dash`
returns with the state unchanged, so no push happens. -/
theorem mount_uses_defaultHistory (el : Element) (options : Auth.MountOptions) (h : History)
    (hh : options.defaultHistory = some h) :
    Auth.chooseHistory options = h ∧
    (Auth.mount el options).app.history =
      { h with listeners := h.listeners ++ options.onNavigate.toList } ∧
    (Auth.mount el options).app.trace = [Event.rendered el] ∧
    (h.location.pathname = "/dash" → ∀ (depth : Nat) (next : Location),
      next.pathname = "/dash" →
      Auth.onParentNavigate (depth + 1) next (Auth.mount el options).app =
        some (Auth.mount el options).app) := by
  have hc : Auth.chooseHistory options = h := by simp [Auth.chooseHistory, hh]
  have hm : (Auth.mount el options).app.history =
      { h with listeners := h.listeners ++ options.onNavigate.toList } := by
    unfold Auth.mount
    cases ho : options.onNavigate <;> simp [hc, History.listen]
  refine ⟨hc, hm, rfl, ?_⟩
  intro hdash depth next hnext
  apply onParentNavigate_eq
  rw [hm, hnext, hdash]

theorem mount_uses_defaultHistory_witness :
    Auth.onParentNavigate 1 { pathname := "/dash" }
        (Auth.mount { id := "root" }
          { defaultHistory := some (createBrowserHistory "/dash") }).app =
      some (Auth.mount { id := "root" }
          { defaultHistory := some (createBrowserHistory "/dash") }).app :=
  (mount_uses_defaultHistory { id := "root" }
    { defaultHistory := some (createBrowserHistory "/dash") } (createBrowserHistory "/dash")
    rfl).2.2.2 rfl 0 { pathname := "/dash" } rfl

/-- C7 (fails as stated): with `initialPath` the empty string and no supplied
controller, the single entry of the created controller has pathname `/`, not the
given string. -/
theorem empty_initialPath_gives_root :
    (Auth.mount { id := "root" } { initialPath := some "" }).app.history.entries =
      [{ pathname := "/" }] ∧
    (Auth.mount { id := "root" } { initialPath := some "" }).app.history.entries ≠
      [{ pathname := "" }] := by
  decide

/-- C7 (amended): without a supplied controller, `mount` creates an in-memory
controller with exactly one entry, which is the current location; its pathname
is the given `initialPath` for every non-empty string, and `/` when
`initialPath` is not given or is the empty string. A first `onParentNavigate`
with that pathname changes nothing. -/
theorem mount_creates_memory_history (el : Element) (options : Auth.MountOptions)
    (hnone : options.defaultHistory = none) :
    (Auth.mount el options).app.history.backing = Backing.memory ∧
    (Auth.mount el options).app.history.entries =
      [{ pathname := Auth.initialPathOrRoot options.initialPath }] ∧
    (Auth.mount el options).app.history.index = 0 ∧
    (Auth.mount el options).app.history.location =
      { pathname := Auth.initialPathOrRoot options.initialPath } ∧
    (∀ p : String, options.initialPath = some p → p ≠ "" →
      Auth.initialPathOrRoot options.initialPath = p) ∧
    (options.initialPath = none ∨ options.initialPath = some "" →
      Auth.initialPathOrRoot options.initialPath = "/") ∧
    (∀ (depth : Nat) (next : Location),
      next.pathname = Auth.initialPathOrRoot options.initialPath →
      Auth.onParentNavigate (depth + 1) next (Auth.mount el options).app =
        some (Auth.mount el options).app) := by
  have hm : (Auth.mount el options).app.history =
      { createMemoryHistory [Auth.initialPathOrRoot options.initialPath] with
        listeners := options.onNavigate.toList } := by
    unfold Auth.mount
    cases ho : options.onNavigate <;>
      simp [Auth.chooseHistory, hnone, History.listen, createMemoryHistory]
  refine ⟨?_, ?_, ?_, ?_, ?_, ?_, ?_⟩
  · rw [hm]; rfl
  · rw [hm]; rfl
  · rw [hm]; rfl
  · rw [hm]; rfl
  · intro p hp hne
    simp [Auth.initialPathOrRoot, hp, hne]
  · intro hp
    rcases hp with hp | hp <;> simp [Auth.initialPathOrRoot, hp]
  · intro depth next hnext
    apply onParentNavigate_eq
    rw [hm, hnext]
    rfl

theorem mount_creates_memory_history_witness :
    (Auth.mount { id := "root" } { initialPath := some "/login" }).app.history.entries =
      [{ pathname := "/login" }] ∧
    (Auth.mount { id := "root" } {}).app.history.entries = [{ pathname := "/" }] ∧
    Auth.initialPathOrRoot (some "/login") = "/login" ∧
    Auth.initialPathOrRoot (some "") = "/" ∧
    Auth.onParentNavigate 1 { pathname := "/login" }
        (Auth.mount { id := "root" } { initialPath := some "/login" }).app =
      some (Auth.mount { id := "root" } { initialPath := some "/login" }).app :=
  ⟨(mount_creates_memory_history { id := "root" } { initialPath := some "/login" } rfl).2.1,
   (mount_creates_memory_history { id := "root" } {} rfl).2.1,
   (mount_creates_memory_history { id := "root" } { initialPath := some "/login" }
      rfl).2.2.2.2.1 "/login" rfl (by decide),
   (mount_creates_memory_history { id := "root" } { initialPath := some "" }
      rfl).2.2.2.2.2.1 (Or.inr rfl),
   (mount_creates_memory_history { id := "root" } { initialPath := some "/login" }
      rfl).2.2.2.2.2.2 0 { pathname := "/login" } rfl⟩

/-- C9 (fails for the dashboard): the dashboard's `mount` returns no handle. -/
theorem dashboard_mount_returns_no_handle :
    ¬ ∃ handle : Auth.Handle,
      (Dashboard.mount { id := "_dashboard-dev-root" }
        (freshPage ["_dashboard-dev-root"] "/")).returned = some handle := by
  rintro ⟨handle, h⟩
  simp [Dashboard.mount] at h

/-- C9 (amended): for every host element and every options object, auth's
`mount` returns a handle whose `onParentNavigate` is the method of lines 20-26;
the dashboard's `mount` mounts on the element and returns no value. -/
theorem mount_return_values :
    (∀ (el : Element) (options : Auth.MountOptions), ∃ handle : Auth.Handle,
      (Auth.mount el options).returned = some handle ∧
      handle.onParentNavigate = Auth.onParentNavigate) ∧
    (∀ (el : Element) (w : Window),
      (Dashboard.mount el w).returned = none ∧
      (Dashboard.mount el w).window.dashboardMounts = w.dashboardMounts ++ [el]) :=
  ⟨fun _ _ => ⟨_, rfl, rfl⟩, fun _ _ => ⟨rfl, rfl⟩⟩

/-- C10 (fails as stated): `onNavigate` is supplied, but the supplied controller
already carries the listener `pingPong`, registered before it; an in-app push
of `/a` then returns under no nesting bound, `pingPong` calling back into the
handle for ever before the `onNavigate` listener is reached. -/
theorem pingPong_push_never_returns :
    pingPongOptions.onNavigate = some relay ∧
    (Auth.mount { id := "root" } pingPongOptions).app.history.listeners = [pingPong, relay] ∧
    ¬ ∃ fuel b, Auth.navigate fuel "/a"
        (Auth.mount { id := "root" } pingPongOptions).app = some b := by
  refine ⟨rfl, rfl, ?_⟩
  rintro ⟨fuel, b, h⟩
  have hnone := pingPong_never_returns [relay] fuel { pathname := "/b" }
    { history := (Auth.mount { id := "root" } pingPongOptions).app.history.pushEntry "/a"
      trace := (Auth.mount { id := "root" } pingPongOptions).app.trace ++ [Event.pushed "/a"] ++
        [Event.fired 0 { pathname := "/a" }] } rfl (by decide)
  have hrun : Auth.navigate fuel "/a" (Auth.mount { id := "root" } pingPongOptions).app =
      none := by
    show notifyListeners (Auth.onParentNavigate fuel) { pathname := "/a" } 0 [pingPong, relay]
      { history := (Auth.mount { id := "root" } pingPongOptions).app.history.pushEntry "/a"
        trace := (Auth.mount { id := "root" } pingPongOptions).app.trace ++
          [Event.pushed "/a"] } = none
    have hq : pingPong.forwards { pathname := "/a" } = [{ pathname := "/b" }] := rfl
    simp only [notifyListeners, hq, relayAll]
    rw [hnone]
    rfl
  rw [hrun] at h
  cases h

/-- C10 (amended): auth's `mount` registers `onNavigate` exactly when it is
supplied. Supplied: the controller's listeners are those it had, followed by
the callback (one listener added); nothing is fired during `mount`; and in
every state reached by navigation pushes, a navigation that returns (in-app, or
through `onParentNavigate`) has fired that listener exactly once for every push
made on the controller, the pushes made by listeners calling back into the
handle included, each time with the location of that push (the locations it was
fired with are, up to order, the locations pushed); an in-app push does return,
with one push and that listener fired once with the new location, when no
listener, fired with the new location, calls back into the handle with another
pathname. Absent: the listeners are those the controller had. -/
theorem mount_registers_onNavigate (el : Element) (options : Auth.MountOptions) :
    (∀ cb : Callback, options.onNavigate = some cb →
      (Auth.mount el options).app.history.listeners =
        (Auth.chooseHistory options).listeners ++ [cb] ∧
      fireCount (Auth.mount el options).app.trace = 0 ∧
      ∀ (fuel : Nat) (ps : List String) (a : App),
        Auth.navigateAll fuel ps (Auth.mount el options).app = some a →
        (∀ (depth : Nat) (path : String) (b : App), Auth.navigate depth path a = some b →
          ∃ rest, b.trace = a.trace ++ Event.pushed path :: rest ∧
            (firedWith (Auth.chooseHistory options).listeners.length
              (Event.pushed path :: rest)).Perm
              (pushedLocations (Event.pushed path :: rest))) ∧
        (∀ (depth : Nat) (next : Location) (b : App),
          Auth.onParentNavigate depth next a = some b →
          ∃ suffix, b.trace = a.trace ++ suffix ∧
            (next.pathname ≠ a.history.location.pathname →
              ∃ rest, suffix = Event.pushed next.pathname :: rest) ∧
            (firedWith (Auth.chooseHistory options).listeners.length suffix).Perm
              (pushedLocations suffix)) ∧
        (∀ (path : String) (depth : Nat),
          (∀ l ∈ (Auth.mount el options).app.history.listeners,
            l.EchoesAt { pathname := path }) →
          ∃ b rest, Auth.navigate (depth + 1) path a = some b ∧
            b.history.location = { pathname := path } ∧
            b.trace = a.trace ++ Event.pushed path :: rest ∧
            pushCount rest = 0 ∧
            firedWith (Auth.chooseHistory options).listeners.length rest =
              [{ pathname := path }])) ∧
    (options.onNavigate = none →
      (Auth.mount el options).app.history.listeners = (Auth.chooseHistory options).listeners) := by
  constructor
  · intro cb hcb
    have hl : (Auth.mount el options).app.history.listeners =
        (Auth.chooseHistory options).listeners ++ [cb] := by
      rw [mount_listeners, hcb]
      rfl
    refine ⟨hl, rfl, ?_⟩
    intro fuel ps a hreach
    have hls := navigateAll_listeners fuel ps _ a hreach
    have hk : (Auth.chooseHistory options).listeners.length < a.history.listeners.length := by
      rw [hls, hl]
      simp
    refine ⟨?_, ?_, ?_⟩
    · intro depth path b hrun
      obtain ⟨rest, ht, hc⟩ := push_firedPerPush _ _ (onParentNavigate_listeners depth)
        (onParentNavigate_firedPerPush _ depth) path a b hrun hk
      exact ⟨rest, ht, List.perm_iff_count.mpr hc⟩
    · intro depth next b hrun
      cases depth with
      | zero => simp [Auth.onParentNavigate] at hrun
      | succ depth =>
        by_cases hne : next.pathname = a.history.location.pathname
        · rw [onParentNavigate_eq depth next a hne] at hrun
          refine ⟨[], ?_, fun h => absurd hne h, List.Perm.refl _⟩
          rw [← Option.some.inj hrun]
          simp
        · have hne2 : a.history.location.pathname ≠ next.pathname := fun h => hne h.symm
          have hpush : push (Auth.onParentNavigate depth) next.pathname a = some b := by
            simpa [Auth.onParentNavigate, hne2] using hrun
          obtain ⟨rest, ht, hc⟩ := push_firedPerPush _ _ (onParentNavigate_listeners depth)
            (onParentNavigate_firedPerPush _ depth) next.pathname a b hpush hk
          exact ⟨_, ht, fun _ => ⟨rest, rfl⟩, List.perm_iff_count.mpr hc⟩
    · intro path depth hecho
      have hecho2 : ∀ l ∈ a.history.listeners, l.EchoesAt { pathname := path } := by
        rw [hls]
        exact hecho
      have hlen : a.history.listeners.length =
          (Auth.chooseHistory options).listeners.length + 1 := by
        rw [hls, hl]
        simp
      refine ⟨_, _, push_echo depth path a hecho2, rfl, rfl, pushCount_firings _ _ _, ?_⟩
      simp only [firedWith_firings, hlen]
      simp
  · intro hnone
    rw [mount_listeners, hnone]
    simp

theorem mount_registers_onNavigate_witness :
    (∃ b rest, Auth.navigate 2 "/signup"
        (Auth.mount { id := "root" } (loginOptions (redirect "/signup" "/login2"))).app =
          some b ∧
      b.trace = [Event.rendered { id := "root" }] ++ Event.pushed "/signup" :: rest ∧
      (firedWith 0 (Event.pushed "/signup" :: rest)).Perm
        (pushedLocations (Event.pushed "/signup" :: rest))) ∧
    (∃ b suffix, Auth.onParentNavigate 2 { pathname := "/signup" }
        (Auth.mount { id := "root" } (loginOptions (redirect "/signup" "/login2"))).app =
          some b ∧
      b.trace = [Event.rendered { id := "root" }] ++ suffix ∧
      (∃ rest, suffix = Event.pushed "/signup" :: rest) ∧
      (firedWith 0 suffix).Perm (pushedLocations suffix)) ∧
    (∃ b rest, Auth.navigate 1 "/reset"
        (Auth.mount { id := "root" } (loginOptions (redirect "/signup" "/login2"))).app =
          some b ∧
      b.history.location = { pathname := "/reset" } ∧
      b.trace = [Event.rendered { id := "root" }] ++ Event.pushed "/reset" :: rest ∧
      pushCount rest = 0 ∧
      firedWith 0 rest = [{ pathname := "/reset" }]) ∧
    (Auth.mount { id := "root" } {}).app.history.listeners = [] := by
  have h := ((mount_registers_onNavigate { id := "root" }
    (loginOptions (redirect "/signup" "/login2"))).1 (redirect "/signup" "/login2") rfl).2.2
    0 [] _ rfl
  obtain ⟨rest, ht, hp⟩ := h.1 2 "/signup" _ rfl
  obtain ⟨suffix, ht2, hfirst, hp2⟩ := h.2.1 2 { pathname := "/signup" } _ rfl
  have hecho : ∀ l ∈ (Auth.mount { id := "root" }
      (loginOptions (redirect "/signup" "/login2"))).app.history.listeners,
      l.EchoesAt { pathname := "/reset" } := by
    intro l hl
    rw [mount_listeners] at hl
    simp [loginOptions, Auth.chooseHistory, createMemoryHistory] at hl
    rw [hl]
    intro q hq
    simp [redirect] at hq
  exact ⟨⟨_, rest, rfl, ht, hp⟩, ⟨_, suffix, rfl, ht2, hfirst (by decide), hp2⟩,
    h.2.2 "/reset" 0 hecho, (mount_registers_onNavigate { id := "root" } {}).2 rfl⟩

end Microfrontend
